import Mathlib

/-!
Verification of the 3x3x3 polycube packing solver (blocks.py).

The development shallowly embeds the solver: integer 3-vectors and 3x3
matrices model the numpy arrays, a Block models the piece with its mutable
coordinate state, the occupancy grid is a function on Fin 3 triples, and
the recursive backtracking search is modelled with explicit fuel equal to
the number of remaining candidate pieces (the quantity the recursion
structurally decreases).
-/

set_option maxRecDepth 100000

/-- Integer 3-vectors, modelling numpy length-3 integer arrays. -/
abbrev V3 : Type := Int × Int × Int

/-- 3x3 integer matrices as row triples. -/
abbrev M3 : Type := V3 × V3 × V3

def dot (a b : V3) : Int := a.1 * b.1 + a.2.1 * b.2.1 + a.2.2 * b.2.2

def vadd (a b : V3) : V3 := (a.1 + b.1, a.2.1 + b.2.1, a.2.2 + b.2.2)

def mulVec (M : M3) (v : V3) : V3 := (dot M.1 v, dot M.2.1 v, dot M.2.2 v)

def transpose : M3 → M3
  | ((a, b, c), (d, e, f), (g, h, i)) => ((a, d, g), (b, e, h), (c, f, i))

def matMul (A B : M3) : M3 :=
  match A, transpose B with
  | (r1, r2, r3), (c1, c2, c3) =>
    ((dot r1 c1, dot r1 c2, dot r1 c3),
     (dot r2 c1, dot r2 c2, dot r2 c3),
     (dot r3 c1, dot r3 c2, dot r3 c3))

def det : M3 → Int
  | ((a, b, c), (d, e, f), (g, h, i)) =>
    a * (e * i - f * h) - b * (d * i - f * g) + c * (d * h - e * g)

/-- Rotation matrix Rx from the source (90 degrees about the x axis). -/
def Rx : M3 := ((1, 0, 0), (0, 0, -1), (0, 1, 0))

/-- Rotation matrix Ry from the source (90 degrees about the y axis). -/
def Ry : M3 := ((0, 0, 1), (0, 1, 0), (-1, 0, 0))

/-- Rotation matrix Rz from the source (90 degrees about the z axis). -/
def Rz : M3 := ((0, -1, 0), (1, 0, 0), (0, 0, 1))

def oneM : M3 := ((1, 0, 0), (0, 1, 0), (0, 0, 1))

/-- A piece: its cell offsets (the columns of the numpy 3xN coords array),
the origin set by set_origin, the direction vector, and the name. -/
structure Block where
  coords : List V3
  origin : V3
  direction : V3
  name : String
deriving DecidableEq, Repr

/-- Block constructor: coords from the static data, origin (0,0,0),
direction (1,0,0). -/
def mkBlock (cs : List V3) (nm : String) : Block :=
  { coords := cs, origin := (0, 0, 0), direction := (1, 0, 0), name := nm }

/-- One in-place rotation step of a block by matrix M, as performed by
Block.roll (M = Rx) and Block.turn (M = Rz): every coordinate column and
the direction vector are multiplied by M. -/
def applyOp (M : M3) (b : Block) : Block :=
  { b with coords := b.coords.map (mulVec M), direction := mulVec M b.direction }

def Block.roll (b : Block) : Block := applyOp Rx b

def Block.turn (b : Block) : Block := applyOp Rz b

/-- The operation sequence of one roll followed by three turns, each
operation yielding the current coords (flag true). -/
def stepOps : List (M3 × Bool) := [(Rx, true), (Rz, true), (Rz, true), (Rz, true)]

/-- One outer cycle of Block.rotations: three roll-turn-turn-turn groups
(each op yielding), then a silent roll, turn, roll. -/
def cycleOps : List (M3 × Bool) :=
  stepOps ++ stepOps ++ stepOps ++ [(Rx, false), (Rz, false), (Rx, false)]

/-- The full operation sequence of the Block.rotations generator:
two outer cycles. -/
def opList : List (M3 × Bool) := cycleOps ++ cycleOps

/-- Run the generator: thread the mutable block state through the
operations, collecting the block state at each yield. Returns the yields
and the final block state after the generator is exhausted. -/
def runGen : List (M3 × Bool) → Block → List Block × Block
  | [], b => ([], b)
  | (M, y) :: ops, b =>
    let b2 := applyOp M b
    let r := runGen ops b2
    (if y then b2 :: r.1 else r.1, r.2)

/-- The 24 orientations yielded by one full run of Block.rotations. -/
def Block.rotations (b : Block) : List Block := (runGen opList b).1

/-- The block state left behind after Block.rotations is run to
exhaustion. -/
def rotationsFinal (b : Block) : Block := (runGen opList b).2

/-- Cumulative rotation matrices at each yield point: acc is the product
of all operations applied so far (in application order). -/
def runMats : List (M3 × Bool) → M3 → List M3
  | [], _ => []
  | (M, y) :: ops, acc =>
    let acc2 := matMul M acc
    let r := runMats ops acc2
    if y then acc2 :: r else r

/-- The 24 cumulative rotation matrices of one full generator run. -/
def rotMats : List M3 := runMats opList oneM

/-- Product of an operation list in application order, starting from A. -/
def prodOps : List (M3 × Bool) → M3 → M3
  | [], A => A
  | (M, _) :: ops, A => prodOps ops (matMul M A)

/-- The operation prefix executed when the generator has produced exactly
k yields and is then abandoned (partial consumption). -/
def takeToYield : Nat → List (M3 × Bool) → List (M3 × Bool)
  | 0, _ => []
  | _, [] => []
  | Nat.succ k, (M, y) :: ops =>
    (M, y) :: takeToYield (if y then k else Nat.succ k) ops

lemma mulVec_matMul (A B : M3) (v : V3) :
    mulVec (matMul A B) v = mulVec A (mulVec B v) := by
  obtain ⟨⟨a1, a2, a3⟩, ⟨b1, b2, b3⟩, c1, c2, c3⟩ := A
  obtain ⟨⟨d1, d2, d3⟩, ⟨e1, e2, e3⟩, f1, f2, f3⟩ := B
  obtain ⟨x, y, z⟩ := v
  simp only [matMul, transpose, mulVec, dot, Prod.mk.injEq]
  refine ⟨by ring, by ring, by ring⟩

lemma mulVec_one (v : V3) : mulVec oneM v = v := by
  obtain ⟨x, y, z⟩ := v
  simp only [mulVec, oneM, dot, Prod.mk.injEq]
  refine ⟨by ring, by ring, by ring⟩

lemma mulVec_zero (M : M3) : mulVec M (0, 0, 0) = (0, 0, 0) := by
  obtain ⟨⟨a1, a2, a3⟩, ⟨b1, b2, b3⟩, c1, c2, c3⟩ := M
  simp only [mulVec, dot, Prod.mk.injEq]
  refine ⟨by ring, by ring, by ring⟩

lemma map_ext_fun {α β : Type} (f g : α → β) (l : List α) (h : ∀ x, f x = g x) :
    l.map f = l.map g := by
  induction l with
  | nil => rfl
  | cons x xs ih => simp [h, ih]

lemma applyOp_applyOp (M N : M3) (b : Block) :
    applyOp M (applyOp N b) = applyOp (matMul M N) b := by
  cases b with
  | mk cs o d nm =>
    simp only [applyOp, List.map_map, Block.mk.injEq]
    exact ⟨map_ext_fun _ _ _ (fun v => (mulVec_matMul M N v).symm), trivial,
      (mulVec_matMul M N d).symm, trivial⟩

lemma applyOp_one (b : Block) : applyOp oneM b = b := by
  cases b with
  | mk cs o d nm =>
    simp only [applyOp, Block.mk.injEq]
    refine ⟨?_, trivial, mulVec_one d, trivial⟩
    calc cs.map (mulVec oneM) = cs.map id := map_ext_fun _ _ _ mulVec_one
    _ = cs := List.map_id cs

lemma runGen_fst (ops : List (M3 × Bool)) :
    ∀ (A : M3) (b : Block),
      (runGen ops (applyOp A b)).1 = (runMats ops A).map (fun M => applyOp M b) := by
  induction ops with
  | nil => intro A b; rfl
  | cons op rest ih =>
    intro A b
    obtain ⟨M, y⟩ := op
    simp only [runGen, runMats, applyOp_applyOp, ih (matMul M A) b]
    cases y <;> simp

lemma runGen_snd (ops : List (M3 × Bool)) :
    ∀ (A : M3) (b : Block),
      (runGen ops (applyOp A b)).2 = applyOp (prodOps ops A) b := by
  induction ops with
  | nil => intro A b; rfl
  | cons op rest ih =>
    intro A b
    obtain ⟨M, y⟩ := op
    simp only [runGen, prodOps, applyOp_applyOp, ih (matMul M A) b]

lemma rotations_eq (b : Block) :
    Block.rotations b = rotMats.map (fun M => applyOp M b) := by
  have h := runGen_fst opList oneM b
  rw [applyOp_one] at h
  exact h

lemma rotationsFinal_eq (b : Block) : rotationsFinal b = b := by
  have h := runGen_snd opList oneM b
  rw [applyOp_one] at h
  have hp : prodOps opList oneM = oneM := by decide
  rw [hp, applyOp_one] at h
  exact h

lemma rotations_origin_name (b y : Block) (hy : y ∈ Block.rotations b) :
    y.origin = b.origin ∧ y.name = b.name ∧
      ∃ M ∈ rotMats, y.coords = b.coords.map (mulVec M) := by
  rw [rotations_eq] at hy
  obtain ⟨M, hM, rfl⟩ := List.mem_map.mp hy
  exact ⟨rfl, rfl, M, hM, rfl⟩

/-- The occupancy grid of the Box: a 3x3x3 integer array, all zeros at
construction, entries set to 1 by placement. -/
abbrev Vol : Type := Fin 3 → Fin 3 → Fin 3 → Int

def emptyVol : Vol := fun _ _ _ => 0

/-- Index wrap of Python array indexing for indices in the valid range:
mathematical mod 3 agrees with Python indexing for indices in [-3, 3). -/
def toFin (n : Int) : Fin 3 := ⟨(n % 3).toNat, by omega⟩

def toFinT (c : V3) : Fin 3 × Fin 3 × Fin 3 := (toFin c.1, toFin c.2.1, toFin c.2.2)

/-- Read the grid entry addressed by an integer coordinate triple (used
only after the bounds check, where the wrap is the identity). -/
def boxGet (v : Vol) (c : V3) : Int := v (toFinT c).1 (toFinT c).2.1 (toFinT c).2.2

/-- Write 1 to the grid entry addressed by an integer coordinate triple. -/
def markCell (v : Vol) (c : V3) : Vol :=
  fun i j k => if (i, j, k) = toFinT c then 1 else v i j k

/-- All coordinates within the 3x3x3 volume: no coordinate below 0 or
above 2 in any axis (the negation of the source bounds test). -/
def inBounds (c : V3) : Prop :=
  0 ≤ c.1 ∧ c.1 ≤ 2 ∧ 0 ≤ c.2.1 ∧ c.2.1 ≤ 2 ∧ 0 ≤ c.2.2 ∧ c.2.2 ≤ 2

instance (c : V3) : Decidable (inBounds c) := by unfold inBounds; infer_instance

/-- Indices accepted by raw Python indexing of a length-3 axis: in
[-3, 3), negative values wrapping. Outside this range indexing raises. -/
def markIdxOk (c : V3) : Prop :=
  -3 ≤ c.1 ∧ c.1 < 3 ∧ -3 ≤ c.2.1 ∧ c.2.1 < 3 ∧ -3 ≤ c.2.2 ∧ c.2.2 < 3

instance (c : V3) : Decidable (markIdxOk c) := by unfold markIdxOk; infer_instance

/-- The two recoverable placement errors (both IndexError in the source,
distinguished by message), plus the raw indexing error a marking of an
out-of-range cell would raise (unreachable after validation). -/
inductive PErr where
  | outOfBounds : PErr
  | collision : PErr
  | indexError : PErr
deriving DecidableEq, Repr

instance : DecidableEq (Except PErr Unit) := fun x y =>
  match x, y with
  | Except.ok (), Except.ok () => isTrue rfl
  | Except.ok (), Except.error _ => isFalse (fun h => Except.noConfusion h)
  | Except.error _, Except.ok () => isFalse (fun h => Except.noConfusion h)
  | Except.error e1, Except.error e2 =>
    match decEq e1 e2 with
    | isTrue h => isTrue (by rw [h])
    | isFalse h => isFalse (fun hh => h (by injection hh))

/-- Box.validate_placement: for each offset in order, compute the
absolute cell, raise OutOfBounds if any coordinate is below 0 or above 2,
then raise Collision if the cell is occupied (truthy entry). -/
def validate_placement (v : Vol) (offs : List V3) (a : V3) : Except PErr Unit :=
  match offs with
  | [] => Except.ok ()
  | off :: rest =>
    if ¬ inBounds (vadd a off) then Except.error PErr.outOfBounds
    else if boxGet v (vadd a off) ≠ 0 then Except.error PErr.collision
    else validate_placement v rest a

/-- The marking loop of Box.place: mark each absolute cell in order;
a cell outside the raw indexable range raises mid-loop (first component
false), leaving the cells marked so far. -/
def markRun (v : Vol) (offs : List V3) (a : V3) : Bool × Vol :=
  match offs with
  | [] => (true, v)
  | off :: rest =>
    if markIdxOk (vadd a off) then markRun (markCell v (vadd a off)) rest a
    else (false, v)

/-- Box.place: validate the whole placement, then mark all cells. The
second component is the state of the grid when the call ends, also when
it ends by raising. -/
def placeRun (v : Vol) (offs : List V3) (a : V3) : Except PErr Unit × Vol :=
  match validate_placement v offs a with
  | Except.error e => (Except.error e, v)
  | Except.ok () =>
    let r := markRun v offs a
    (if r.1 then Except.ok () else Except.error PErr.indexError, r.2)

/-- All 27 cells of the grid, in raster order. -/
def allCells : List (Fin 3 × Fin 3 × Fin 3) :=
  (List.finRange 3).flatMap (fun i =>
    (List.finRange 3).flatMap (fun j =>
      (List.finRange 3).map (fun k => (i, j, k))))

/-- Box.is_filled: every entry of the grid equals 1. -/
def is_filled (v : Vol) : Bool := allCells.all (fun c => v c.1 c.2.1 c.2.2 == 1)

/-- Box.num_filled: the sum of all grid entries. -/
def num_filled (v : Vol) : Int := (allCells.map (fun c => v c.1 c.2.1 c.2.2)).sum

/-- Box.coord_is_filled: the raw grid entry (used for truthiness). -/
def coord_is_filled (v : Vol) (i j k : Fin 3) : Int := v i j k

/-- The game state: candidate blocks still to place, blocks placed so
far, and the box. -/
structure GameState where
  block_candidates : List Block
  placed_blocks : List Block
  box : Vol

def is_solved (g : GameState) : Bool := is_filled g.box

/-- The 27 anchor coordinates enumerated by the i, j, k loops of solve,
in raster order. -/
def anchorsList : List V3 :=
  (List.range 3).flatMap (fun i =>
    (List.range 3).flatMap (fun j =>
      (List.range 3).map (fun k => ((i : Int), (j : Int), (k : Int)))))

/-- The inner orientation loop of solve: for each yielded orientation,
deep-copy the game, attempt the placement, recurse on success, and
return the recursive result when it is solved; placement errors abandon
the trial and continue. -/
def solveRots (recur : GameState → GameState) (g : GameState) (a : V3) :
    List Block → Option GameState
  | [] => none
  | y :: ys =>
    match placeRun g.box y.coords a with
    | (Except.error _, _) => solveRots recur g a ys
    | (Except.ok _, box2) =>
      let child := recur { block_candidates := g.block_candidates,
                           placed_blocks := g.placed_blocks ++ [y],
                           box := box2 }
      if is_solved child then some child else solveRots recur g a ys

/-- The anchor loops of solve: skip anchors whose cell is already filled,
otherwise run the orientation loop of the selected block re-anchored at
the current cell. -/
def solveAnchors (recur : GameState → GameState) (g : GameState) (pb : Block) :
    List V3 → Option GameState
  | [] => none
  | a :: rest =>
    if boxGet g.box a ≠ 0 then solveAnchors recur g pb rest
    else
      match solveRots recur g a (Block.rotations { pb with origin := a }) with
      | some s => some s
      | none => solveAnchors recur g pb rest

/-- The recursive search with explicit fuel; each level consumes the last
candidate block, so the fuel equals the number of candidates. -/
def solveFuel : Nat → GameState → GameState
  | 0, g => g
  | Nat.succ n, g =>
    if is_solved g then g
    else
      match g.block_candidates.getLast? with
      | none => g
      | some pb =>
        let g2 : GameState := { g with block_candidates := g.block_candidates.dropLast }
        match solveAnchors (solveFuel n) g2 pb anchorsList with
        | some s => s
        | none => g2

/-- The solve procedure of the source: the fuel is the number of
candidate blocks, the quantity each recursive level decreases by one. -/
def solve (g : GameState) : GameState := solveFuel g.block_candidates.length g

/-- The verdict of the per-cell check of validate_placement: bounds
first, then occupancy. -/
def cellErr (v : Vol) (a off : V3) : Option PErr :=
  if ¬ inBounds (vadd a off) then some PErr.outOfBounds
  else if boxGet v (vadd a off) ≠ 0 then some PErr.collision
  else none

lemma validate_cons (v : Vol) (off : V3) (rest : List V3) (a : V3) :
    validate_placement v (off :: rest) a =
      match cellErr v a off with
      | some e => Except.error e
      | none => validate_placement v rest a := by
  simp only [validate_placement, cellErr]
  split_ifs <;> rfl

lemma validate_ok_iff (v : Vol) (offs : List V3) (a : V3) :
    validate_placement v offs a = Except.ok () ↔
      ∀ o ∈ offs, inBounds (vadd a o) ∧ boxGet v (vadd a o) = 0 := by
  induction offs with
  | nil => simp [validate_placement]
  | cons off rest ih =>
    simp only [validate_placement]
    by_cases h1 : inBounds (vadd a off)
    · rw [if_neg (not_not_intro h1)]
      by_cases h2 : boxGet v (vadd a off) = 0
      · rw [if_neg (not_not_intro h2), ih]
        constructor
        · intro h o ho
          rcases List.mem_cons.mp ho with rfl | ho
          · exact ⟨h1, h2⟩
          · exact h o ho
        · intro h o ho
          exact h o (List.mem_cons_of_mem _ ho)
      · rw [if_pos h2]
        constructor
        · intro h; exact absurd h (by simp)
        · intro h; exact absurd (h off (List.mem_cons_self off rest)).2 h2
    · rw [if_pos h1]
      constructor
      · intro h; exact absurd h (by simp)
      · intro h; exact absurd (h off (List.mem_cons_self off rest)).1 h1

lemma validate_error_iff (v : Vol) (offs : List V3) (a : V3) (e : PErr) :
    validate_placement v offs a = Except.error e ↔
      ∃ pre off post, offs = pre ++ off :: post ∧
        (∀ o ∈ pre, cellErr v a o = none) ∧ cellErr v a off = some e := by
  induction offs with
  | nil =>
    simp only [validate_placement]
    constructor
    · intro h; exact absurd h (by simp)
    · rintro ⟨pre, off, post, h, -, -⟩
      exact absurd h (by simp)
  | cons o0 rest ih =>
    rw [validate_cons]
    cases hc : cellErr v a o0 with
    | some e0 =>
      constructor
      · intro h
        refine ⟨[], o0, rest, rfl, by simp, ?_⟩
        rw [hc]
        simpa using h
      · rintro ⟨pre, off, post, hsplit, hpre, hoff⟩
        cases pre with
        | nil =>
          simp only [List.nil_append, List.cons.injEq] at hsplit
          rw [← hsplit.1] at hoff
          have he : e0 = e := Option.some.inj (hc.symm.trans hoff)
          rw [he]
        | cons p ps =>
          simp only [List.cons_append, List.cons.injEq] at hsplit
          have hp := hpre p (by simp)
          rw [← hsplit.1, hc] at hp
          exact absurd hp (by simp)
    | none =>
      rw [ih]
      constructor
      · rintro ⟨pre, off, post, hsplit, hpre, hoff⟩
        refine ⟨o0 :: pre, off, post, by simp [hsplit], ?_, hoff⟩
        intro o ho
        rcases List.mem_cons.mp ho with rfl | ho
        · exact hc
        · exact hpre o ho
      · rintro ⟨pre, off, post, hsplit, hpre, hoff⟩
        cases pre with
        | nil =>
          simp only [List.nil_append, List.cons.injEq] at hsplit
          rw [← hsplit.1] at hoff
          rw [hc] at hoff
          exact absurd hoff (by simp)
        | cons p ps =>
          simp only [List.cons_append, List.cons.injEq] at hsplit
          refine ⟨ps, off, post, hsplit.2, ?_, hoff⟩
          intro o ho
          exact hpre o (by simp [ho])

lemma inBounds_markIdxOk (c : V3) (h : inBounds c) : markIdxOk c := by
  obtain ⟨x, y, z⟩ := c
  unfold inBounds at h
  unfold markIdxOk
  simp only at h ⊢
  omega

lemma markRun_ok (offs : List V3) (a : V3) :
    ∀ v : Vol, (∀ o ∈ offs, markIdxOk (vadd a o)) → (markRun v offs a).1 = true := by
  induction offs with
  | nil => intro v _; rfl
  | cons off rest ih =>
    intro v h
    have hok := h off (by simp)
    simp only [markRun, if_pos hok]
    exact ih _ (fun o ho => h o (List.mem_cons_of_mem _ ho))

lemma markRun_get (offs : List V3) (a : V3) :
    ∀ v : Vol, (∀ o ∈ offs, markIdxOk (vadd a o)) → ∀ i j k : Fin 3,
      (markRun v offs a).2 i j k =
        if ∃ o ∈ offs, (i, j, k) = toFinT (vadd a o) then 1 else v i j k := by
  induction offs with
  | nil => intro v _ i j k; simp [markRun]
  | cons off rest ih =>
    intro v h i j k
    have hok := h off (by simp)
    simp only [markRun, if_pos hok]
    rw [ih _ (fun o ho => h o (List.mem_cons_of_mem _ ho)) i j k]
    by_cases hrest : ∃ o ∈ rest, (i, j, k) = toFinT (vadd a o)
    · rw [if_pos hrest, if_pos ?_]
      obtain ⟨o, ho, heq⟩ := hrest
      exact ⟨o, List.mem_cons_of_mem _ ho, heq⟩
    · rw [if_neg hrest]
      unfold markCell
      by_cases hoff : (i, j, k) = toFinT (vadd a off)
      · rw [if_pos hoff, if_pos ⟨off, by simp, hoff⟩]
      · rw [if_neg hoff, if_neg ?_]
        rintro ⟨o, ho, heq⟩
        rcases List.mem_cons.mp ho with rfl | ho
        · exact hoff heq
        · exact hrest ⟨o, ho, heq⟩

lemma placeRun_ok_iff (v : Vol) (offs : List V3) (a : V3) :
    (placeRun v offs a).1 = Except.ok () ↔
      validate_placement v offs a = Except.ok () := by
  unfold placeRun
  cases hv : validate_placement v offs a with
  | error e => simp
  | ok u =>
    cases u
    have hm : (markRun v offs a).1 = true := by
      apply markRun_ok
      intro o ho
      exact inBounds_markIdxOk _ ((validate_ok_iff v offs a).mp hv o ho).1
    simp [hm]

lemma placeRun_error_frame (v : Vol) (offs : List V3) (a : V3) (e : PErr)
    (h : (placeRun v offs a).1 = Except.error e) : (placeRun v offs a).2 = v := by
  unfold placeRun at h ⊢
  cases hv : validate_placement v offs a with
  | error e0 => simp [hv]
  | ok u =>
    cases u
    have hm : (markRun v offs a).1 = true := by
      apply markRun_ok
      intro o ho
      exact inBounds_markIdxOk _ ((validate_ok_iff v offs a).mp hv o ho).1
    rw [hv] at h
    simp [hm] at h

lemma placeRun_ok_parts (v : Vol) (offs : List V3) (a : V3) (v2 : Vol)
    (h : placeRun v offs a = (Except.ok (), v2)) :
    validate_placement v offs a = Except.ok () ∧
      ∀ i j k : Fin 3,
        v2 i j k = if ∃ o ∈ offs, (i, j, k) = toFinT (vadd a o) then 1 else v i j k := by
  have hok : (placeRun v offs a).1 = Except.ok () := by rw [h]
  have hv := (placeRun_ok_iff v offs a).mp hok
  refine ⟨hv, ?_⟩
  have hb : ∀ o ∈ offs, markIdxOk (vadd a o) := by
    intro o ho
    exact inBounds_markIdxOk _ ((validate_ok_iff v offs a).mp hv o ho).1
  have h2 : (placeRun v offs a).2 = (markRun v offs a).2 := by
    unfold placeRun
    rw [hv]
  intro i j k
  rw [← markRun_get offs a v hb i j k, ← h2, h]

/-- The integer coordinate triple of a grid cell. -/
def intV (i j k : Fin 3) : V3 := ((i.val : Int), (j.val : Int), (k.val : Int))

lemma toFin_intCast (i : Fin 3) : toFin ((i.val : Int)) = i := by
  have hi := i.isLt
  apply Fin.ext
  simp only [toFin]
  omega

lemma toFinT_intV (i j k : Fin 3) : toFinT (intV i j k) = (i, j, k) := by
  simp only [toFinT, intV, toFin_intCast]

lemma intV_toFinT (c : V3) (h : inBounds c) :
    intV (toFinT c).1 (toFinT c).2.1 (toFinT c).2.2 = c := by
  obtain ⟨x, y, z⟩ := c
  unfold inBounds at h
  simp only at h
  simp only [intV, toFinT, toFin, Prod.mk.injEq]
  refine ⟨by omega, by omega, by omega⟩

lemma boxGet_intV (v : Vol) (i j k : Fin 3) : boxGet v (intV i j k) = v i j k := by
  simp only [boxGet, toFinT_intV]

lemma vadd_zero_right (a : V3) : vadd a (0, 0, 0) = a := by
  obtain ⟨x, y, z⟩ := a
  simp [vadd]

lemma sum_le_length (l : List Int) (h : ∀ x ∈ l, x = 0 ∨ x = 1) :
    l.sum ≤ (l.length : Int) := by
  induction l with
  | nil => simp
  | cons x xs ih =>
    have hx := h x (List.mem_cons_self x xs)
    have hxs := ih (fun y hy => h y (List.mem_cons_of_mem _ hy))
    simp only [List.sum_cons, List.length_cons]
    push_cast
    omega

lemma sum_eq_length_iff (l : List Int) (h : ∀ x ∈ l, x = 0 ∨ x = 1) :
    l.sum = (l.length : Int) ↔ ∀ x ∈ l, x = 1 := by
  induction l with
  | nil => simp
  | cons x xs ih =>
    have hx := h x (List.mem_cons_self x xs)
    have hrest : ∀ y ∈ xs, y = 0 ∨ y = 1 := fun y hy => h y (List.mem_cons_of_mem _ hy)
    have hle := sum_le_length xs hrest
    simp only [List.sum_cons, List.length_cons]
    constructor
    · intro heq y hy
      have hsum : xs.sum = (xs.length : Int) := by
        push_cast at heq
        rcases hx with rfl | rfl <;> omega
      rcases List.mem_cons.mp hy with rfl | hy
      · push_cast at heq
        omega
      · exact (ih hrest).mp hsum y hy
    · intro hall
      have hx1 : x = 1 := hall x (List.mem_cons_self x xs)
      have hsum : xs.sum = (xs.length : Int) :=
        (ih hrest).mpr (fun y hy => hall y (List.mem_cons_of_mem _ hy))
      push_cast
      omega

lemma mem_allCells_all : ∀ c : Fin 3 × Fin 3 × Fin 3, c ∈ allCells := by decide

lemma mem_allCells (i j k : Fin 3) : (i, j, k) ∈ allCells := mem_allCells_all (i, j, k)

lemma is_filled_iff (v : Vol) : is_filled v = true ↔ ∀ i j k : Fin 3, v i j k = 1 := by
  unfold is_filled
  rw [List.all_eq_true]
  constructor
  · intro h i j k
    have := h (i, j, k) (mem_allCells i j k)
    simpa using this
  · intro h c hc
    simpa using h c.1 c.2.1 c.2.2

/-- Volumes reachable from the empty grid by successful placements. -/
inductive VolReachable : Vol → Prop where
  | empty : VolReachable emptyVol
  | step (v : Vol) (offs : List V3) (a : V3) (v2 : Vol) :
      VolReachable v → placeRun v offs a = (Except.ok (), v2) → VolReachable v2

lemma volReachable_01 (v : Vol) (h : VolReachable v) :
    ∀ i j k : Fin 3, v i j k = 0 ∨ v i j k = 1 := by
  induction h with
  | empty => intro i j k; exact Or.inl rfl
  | step v offs a v2 hv hp ih =>
    intro i j k
    rw [(placeRun_ok_parts v offs a v2 hp).2 i j k]
    by_cases hm : ∃ o ∈ offs, (i, j, k) = toFinT (vadd a o)
    · rw [if_pos hm]; exact Or.inr rfl
    · rw [if_neg hm]; exact ih i j k

/-- The absolute cells of a placed block: origin plus each offset. -/
def cellsOf (b : Block) : List V3 := b.coords.map (vadd b.origin)

/-- Search states reachable from an initial state by the operations of
solve: pop the last candidate, pick an unfilled anchor, pick a generated
orientation, and commit a successful placement. -/
inductive Reachable : GameState → Prop where
  | init (cands : List Block) : Reachable ⟨cands, [], emptyVol⟩
  | step (g : GameState) (pb : Block) (a : V3) (y : Block) (box2 : Vol) :
      Reachable g →
      is_solved g = false →
      g.block_candidates.getLast? = some pb →
      a ∈ anchorsList →
      boxGet g.box a = 0 →
      y ∈ Block.rotations { pb with origin := a } →
      placeRun g.box y.coords a = (Except.ok (), box2) →
      Reachable ⟨g.block_candidates.dropLast, g.placed_blocks ++ [y], box2⟩

/-- The packing invariant: placed cells are in bounds, the filled grid
cells are exactly the union of the placed blocks' absolute cells, and
distinct placed blocks occupy disjoint cell sets. -/
def PackingInv (g : GameState) : Prop :=
  (∀ b ∈ g.placed_blocks, ∀ c ∈ cellsOf b, inBounds c) ∧
  (∀ i j k : Fin 3,
    (g.box i j k ≠ 0 ↔ ∃ b ∈ g.placed_blocks, intV i j k ∈ cellsOf b)) ∧
  List.Pairwise (fun b1 b2 => ∀ c ∈ cellsOf b1, c ∉ cellsOf b2) g.placed_blocks

lemma packing_step (cands cands2 placed : List Block) (box : Vol) (a : V3) (y : Block)
    (box2 : Vol) (horig : y.origin = a)
    (hplace : placeRun box y.coords a = (Except.ok (), box2))
    (hinv : PackingInv ⟨cands, placed, box⟩) :
    PackingInv ⟨cands2, placed ++ [y], box2⟩ := by
  obtain ⟨hbnd, hiff, hdisj⟩ := hinv
  obtain ⟨hval, hget⟩ := placeRun_ok_parts box y.coords a box2 hplace
  have hcells := (validate_ok_iff box y.coords a).mp hval
  have hcellsOf : cellsOf y = y.coords.map (vadd a) := by rw [cellsOf, horig]
  refine ⟨?_, ?_, ?_⟩
  · intro b hb c hc
    rcases List.mem_append.mp hb with hb | hb
    · exact hbnd b hb c hc
    · have hby : b = y := by simpa using hb
      subst hby
      rw [hcellsOf] at hc
      obtain ⟨o, ho, rfl⟩ := List.mem_map.mp hc
      exact (hcells o ho).1
  · intro i j k
    show box2 i j k ≠ 0 ↔ _
    rw [hget i j k]
    by_cases hnew : ∃ o ∈ y.coords, (i, j, k) = toFinT (vadd a o)
    · rw [if_pos hnew]
      constructor
      · intro _
        obtain ⟨o, ho, heq⟩ := hnew
        refine ⟨y, List.mem_append.mpr (Or.inr (by simp)), ?_⟩
        rw [hcellsOf]
        have hIb : inBounds (vadd a o) := (hcells o ho).1
        obtain ⟨hi, hj, hk⟩ : i = (toFinT (vadd a o)).1 ∧ j = (toFinT (vadd a o)).2.1 ∧
            k = (toFinT (vadd a o)).2.2 := by
          simpa [Prod.ext_iff] using heq
        have hcv : intV i j k = vadd a o := by
          rw [hi, hj, hk, intV_toFinT _ hIb]
        rw [hcv]
        exact List.mem_map.mpr ⟨o, ho, rfl⟩
      · intro _
        exact one_ne_zero
    · rw [if_neg hnew]
      have hold := hiff i j k
      rw [hold]
      constructor
      · rintro ⟨b, hb, hbc⟩
        exact ⟨b, List.mem_append.mpr (Or.inl hb), hbc⟩
      · rintro ⟨b, hb, hbc⟩
        rcases List.mem_append.mp hb with hb | hb
        · exact ⟨b, hb, hbc⟩
        · exfalso
          have hby : b = y := by simpa using hb
          subst hby
          rw [hcellsOf] at hbc
          obtain ⟨o, ho, heq⟩ := List.mem_map.mp hbc
          apply hnew
          refine ⟨o, ho, ?_⟩
          rw [heq, toFinT_intV]
  · show List.Pairwise _ (placed ++ [y])
    rw [List.pairwise_append]
    refine ⟨hdisj, List.pairwise_singleton _ _, ?_⟩
    intro b hb y2 hy2 c hc
    have hy2y : y2 = y := by simpa using hy2
    subst hy2y
    intro hcy
    have hIb : inBounds c := hbnd b hb c hc
    have hfill : box (toFinT c).1 (toFinT c).2.1 (toFinT c).2.2 ≠ 0 := by
      rw [hiff]
      exact ⟨b, hb, by rw [intV_toFinT c hIb]; exact hc⟩
    rw [hcellsOf] at hcy
    obtain ⟨o, ho, heq⟩ := List.mem_map.mp hcy
    have h0 : boxGet box (vadd a o) = 0 := (hcells o ho).2
    rw [heq] at h0
    exact hfill h0

lemma solveRots_solved (recur : GameState → GameState) (g : GameState) (a : V3) :
    ∀ (ys : List Block) (s : GameState),
      solveRots recur g a ys = some s → is_solved s = true := by
  intro ys
  induction ys with
  | nil => intro s h; exact absurd h (by simp [solveRots])
  | cons y ys ih =>
    intro s h
    simp only [solveRots] at h
    split at h
    · exact ih s h
    · split at h
      · rename_i hs
        cases h
        exact hs
      · exact ih s h

lemma solveAnchors_solved (recur : GameState → GameState) (g : GameState) (pb : Block) :
    ∀ (l : List V3) (s : GameState),
      solveAnchors recur g pb l = some s → is_solved s = true := by
  intro l
  induction l with
  | nil => intro s h; exact absurd h (by simp [solveAnchors])
  | cons a rest ih =>
    intro s h
    simp only [solveAnchors] at h
    split at h
    · exact ih s h
    · split at h
      · rename_i heq
        cases h
        exact solveRots_solved recur g a _ _ heq
      · exact ih s h

lemma length_pos_of_getLast?_eq_some (l : List Block) (pb : Block)
    (h : l.getLast? = some pb) : 0 < l.length := by
  cases l with
  | nil => exact absurd h (by simp)
  | cons x xs => simp

lemma solve_unfold (g : GameState) (pb : Block) (h1 : is_solved g = false)
    (hlast : g.block_candidates.getLast? = some pb) :
    solve g =
      match solveAnchors (solveFuel (g.block_candidates.length - 1))
          { g with block_candidates := g.block_candidates.dropLast } pb anchorsList with
      | some s => s
      | none => { g with block_candidates := g.block_candidates.dropLast } := by
  have hpos := length_pos_of_getLast?_eq_some _ _ hlast
  obtain ⟨n, hn⟩ : ∃ n, g.block_candidates.length = n + 1 :=
    ⟨g.block_candidates.length - 1, by omega⟩
  unfold solve
  rw [hn]
  simp only [solveFuel]
  rw [if_neg (by simp [h1]), hlast]
  rfl

/-- The six signed unit vectors: the only integer vectors of norm 1. -/
def unitVecs : List V3 :=
  [(1, 0, 0), (-1, 0, 0), (0, 1, 0), (0, -1, 0), (0, 0, 1), (0, 0, -1)]

/-- Assemble a matrix from its three columns. -/
def colsToM (c1 c2 c3 : V3) : M3 :=
  ((c1.1, c2.1, c3.1), (c1.2.1, c2.2.1, c3.2.1), (c1.2.2, c2.2.2, c3.2.2))

lemma unit_triple_mem (x y z : Int) (h : x * x + y * y + z * z = 1) :
    ((x, y, z) : V3) ∈ unitVecs := by
  have hx1 : -1 ≤ x := by
    nlinarith [mul_self_nonneg y, mul_self_nonneg z, mul_self_nonneg (x + 1)]
  have hx2 : x ≤ 1 := by
    nlinarith [mul_self_nonneg y, mul_self_nonneg z, mul_self_nonneg (x - 1)]
  have hy1 : -1 ≤ y := by
    nlinarith [mul_self_nonneg x, mul_self_nonneg z, mul_self_nonneg (y + 1)]
  have hy2 : y ≤ 1 := by
    nlinarith [mul_self_nonneg x, mul_self_nonneg z, mul_self_nonneg (y - 1)]
  have hz1 : -1 ≤ z := by
    nlinarith [mul_self_nonneg x, mul_self_nonneg y, mul_self_nonneg (z + 1)]
  have hz2 : z ≤ 1 := by
    nlinarith [mul_self_nonneg x, mul_self_nonneg y, mul_self_nonneg (z - 1)]
  interval_cases x <;> interval_cases y <;> interval_cases z <;> revert h <;> decide

lemma rotMats_proper : ∀ M ∈ rotMats, matMul (transpose M) M = oneM ∧ det M = 1 := by
  decide

lemma cols_mem_rotMats :
    ∀ c1 ∈ unitVecs, ∀ c2 ∈ unitVecs, ∀ c3 ∈ unitVecs,
      dot c1 c2 = 0 → dot c1 c3 = 0 → dot c2 c3 = 0 →
      det (colsToM c1 c2 c3) = 1 → colsToM c1 c2 c3 ∈ rotMats := by
  decide

lemma mem_rotMats_of_proper (M : M3) (horth : matMul (transpose M) M = oneM)
    (hdet : det M = 1) : M ∈ rotMats := by
  obtain ⟨⟨m11, m12, m13⟩, ⟨m21, m22, m23⟩, m31, m32, m33⟩ := M
  simp only [matMul, transpose, oneM, dot, Prod.mk.injEq] at horth
  obtain ⟨⟨h11, h12, h13⟩, ⟨h21, h22, h23⟩, h31, h32, h33⟩ := horth
  have hc1 := unit_triple_mem m11 m21 m31 h11
  have hc2 := unit_triple_mem m12 m22 m32 h22
  have hc3 := unit_triple_mem m13 m23 m33 h33
  exact cols_mem_rotMats _ hc1 _ hc2 _ hc3 h12 h13 h23 hdet

lemma cellErr_some_oob (v : Vol) (a o : V3) :
    cellErr v a o = some PErr.outOfBounds ↔ ¬ inBounds (vadd a o) := by
  unfold cellErr
  by_cases h1 : inBounds (vadd a o)
  · rw [if_neg (not_not_intro h1)]
    by_cases h2 : boxGet v (vadd a o) ≠ 0
    · rw [if_pos h2]; simp [h1]
    · rw [if_neg h2]; simp [h1]
  · rw [if_pos h1]; simp [h1]

lemma cellErr_ne_idx (v : Vol) (a o : V3) : cellErr v a o ≠ some PErr.indexError := by
  unfold cellErr
  split_ifs <;> simp

/-- The block used as concrete test piece (the coords of B1). -/
def blockB1 : Block := mkBlock [(0, 0, 0), (1, 0, 0), (2, 0, 0), (2, 1, 0)] "B1"

/-- A block no placement of which can ever validate: the offset (3,0,0)
keeps one coordinate of magnitude 3 in every orientation. -/
def badBlock : Block := mkBlock [(0, 0, 0), (3, 0, 0)] "B0"

/-- The initial game holding only the unplaceable block. -/
def gBad : GameState :=
  { block_candidates := [badBlock], placed_blocks := [], box := emptyVol }

/-- An empty box with the single cell (0,0,0) filled. -/
def box100 : Vol := markCell emptyVol (0, 0, 0)

/-- An empty box with the single cell (1,1,1) filled. -/
def box111 : Vol := markCell emptyVol (1, 1, 1)

/-- C2 counterexample: a partially consumed rotations generator leaves the
block's coordinate state rotated: after exactly one yield the coords
differ from the canonical coords, refuting the claim that the canonical
offset set is unchanged after the generator is consumed partially. -/
theorem rotations_partial_leak_cx :
    ((runGen (takeToYield 1 opList) blockB1).1).length = 1 ∧
    (runGen (takeToYield 1 opList) blockB1).2.coords ≠ blockB1.coords := by
  decide

/-- C2 (amended): a fully consumed rotations generator restores the block
exactly: the net rotation of the complete operation sequence is the
identity, so after each full run the canonical offset set is available for
the next piece and anchor, and no rotation state leaks across full runs. -/
theorem rotations_full_run_restores (b : Block) : rotationsFinal b = b :=
  rotationsFinal_eq b

/-- C3 counterexample: the validation verdict depends on the order of the
piece's cells: with cell (0,0,0) occupied, the offsets
[(0,0,0), (-1,0,0)] report Collision while the same offsets reversed
report OutOfBounds, so validation stops at the first offending cell
instead of checking all cells before reporting failure. -/
theorem validate_order_dependent_cx :
    validate_placement box100
        [((0 : Int), (0 : Int), (0 : Int)), ((-1 : Int), (0 : Int), (0 : Int))]
        ((0 : Int), (0 : Int), (0 : Int)) = Except.error PErr.collision ∧
    validate_placement box100
        [((-1 : Int), (0 : Int), (0 : Int)), ((0 : Int), (0 : Int), (0 : Int))]
        ((0 : Int), (0 : Int), (0 : Int)) = Except.error PErr.outOfBounds := by
  decide

/-- C3 (amended): validation is pure (it mutates neither the volume nor
the piece, returning only a verdict) but short-circuits: it fails with
error e exactly when the piece's offsets split into a prefix of
non-offending cells followed by a first offending cell whose per-cell
verdict (bounds checked before occupancy) is e. -/
theorem validate_first_offender (v : Vol) (offs : List V3) (a : V3) (e : PErr) :
    validate_placement v offs a = Except.error e ↔
      ∃ pre off post, offs = pre ++ off :: post ∧
        (∀ o ∈ pre, cellErr v a o = none) ∧ cellErr v a off = some e :=
  validate_error_iff v offs a e

/-- Witness for validate_first_offender at a concrete failing placement. -/
theorem validate_first_offender_witness :
    ∃ pre off post,
      ([((0 : Int), (0 : Int), (0 : Int)), ((-1 : Int), (0 : Int), (0 : Int))] :
          List V3) = pre ++ off :: post ∧
      (∀ o ∈ pre, cellErr box100 ((0 : Int), (0 : Int), (0 : Int)) o = none) ∧
      cellErr box100 ((0 : Int), (0 : Int), (0 : Int)) off = some PErr.collision :=
  (validate_first_offender box100
      [((0 : Int), (0 : Int), (0 : Int)), ((-1 : Int), (0 : Int), (0 : Int))]
      ((0 : Int), (0 : Int), (0 : Int)) PErr.collision).mp (by decide)

/-- C5 counterexample: a placement with an out-of-bounds cell does not
fail with OutOfBounds when an occupied cell is checked earlier: with cell
(1,1,1) occupied, offsets [(0,0,0), (0,0,9)] at anchor (1,1,1) contain an
out-of-bounds cell yet validation reports Collision. -/
theorem validate_oob_clause_cx :
    (∃ o ∈ ([((0 : Int), (0 : Int), (0 : Int)), ((0 : Int), (0 : Int), (9 : Int))] :
        List V3), ¬ inBounds (vadd ((1 : Int), (1 : Int), (1 : Int)) o)) ∧
    validate_placement box111
        [((0 : Int), (0 : Int), (0 : Int)), ((0 : Int), (0 : Int), (9 : Int))]
        ((1 : Int), (1 : Int), (1 : Int)) ≠ Except.error PErr.outOfBounds := by
  decide

/-- C5 (amended): validation succeeds exactly when every absolute cell is
in bounds and unoccupied; an OutOfBounds failure implies some cell is out
of bounds; some out-of-bounds cell implies validation fails (though
possibly with Collision when an occupied cell is checked first); and
among all-in-bounds placements it fails with Collision exactly when some
cell is occupied. -/
theorem validate_classification (v : Vol) (offs : List V3) (a : V3) :
    (validate_placement v offs a = Except.ok () ↔
      ∀ o ∈ offs, inBounds (vadd a o) ∧ boxGet v (vadd a o) = 0) ∧
    (validate_placement v offs a = Except.error PErr.outOfBounds →
      ∃ o ∈ offs, ¬ inBounds (vadd a o)) ∧
    ((∃ o ∈ offs, ¬ inBounds (vadd a o)) →
      validate_placement v offs a ≠ Except.ok ()) ∧
    ((∀ o ∈ offs, inBounds (vadd a o)) →
      (validate_placement v offs a = Except.error PErr.collision ↔
        ∃ o ∈ offs, boxGet v (vadd a o) ≠ 0)) := by
  refine ⟨validate_ok_iff v offs a, ?_, ?_, ?_⟩
  · intro he
    obtain ⟨pre, off, post, hsplit, hpre, hoff⟩ := (validate_error_iff v offs a _).mp he
    refine ⟨off, ?_, (cellErr_some_oob v a off).mp hoff⟩
    rw [hsplit]
    exact List.mem_append.mpr (Or.inr (List.mem_cons_self _ _))
  · rintro ⟨o, ho, hnb⟩ hok
    exact hnb ((validate_ok_iff v offs a).mp hok o ho).1
  · intro hall
    constructor
    · intro he
      obtain ⟨pre, off, post, hsplit, hpre, hoff⟩ := (validate_error_iff v offs a _).mp he
      have hmem : off ∈ offs := by
        rw [hsplit]
        exact List.mem_append.mpr (Or.inr (List.mem_cons_self _ _))
      refine ⟨off, hmem, ?_⟩
      unfold cellErr at hoff
      by_cases h1 : inBounds (vadd a off)
      · rw [if_neg (not_not_intro h1)] at hoff
        by_cases h2 : boxGet v (vadd a off) ≠ 0
        · exact h2
        · rw [if_neg h2] at hoff
          exact absurd hoff (by simp)
      · exact absurd (hall off hmem) h1
    · rintro ⟨o, ho, hocc⟩
      cases hv : validate_placement v offs a with
      | ok u =>
        cases u
        exact absurd ((validate_ok_iff v offs a).mp hv o ho).2 hocc
      | error e =>
        cases e with
        | outOfBounds =>
          obtain ⟨pre, off, post, hsplit, hpre, hoff⟩ :=
            (validate_error_iff v offs a _).mp hv
          have hmem : off ∈ offs := by
            rw [hsplit]
            exact List.mem_append.mpr (Or.inr (List.mem_cons_self _ _))
          exact absurd (hall off hmem) ((cellErr_some_oob v a off).mp hoff)
        | collision => rfl
        | indexError =>
          obtain ⟨pre, off, post, hsplit, hpre, hoff⟩ :=
            (validate_error_iff v offs a _).mp hv
          exact absurd hoff (cellErr_ne_idx v a off)

/-- Witness for validate_classification at a concrete valid placement. -/
theorem validate_classification_witness :
    validate_placement emptyVol [((0 : Int), (0 : Int), (0 : Int))]
      ((0 : Int), (0 : Int), (0 : Int)) = Except.ok () :=
  (validate_classification emptyVol [((0 : Int), (0 : Int), (0 : Int))]
    ((0 : Int), (0 : Int), (0 : Int))).1.mpr (by decide)

/-- C6: placement is atomic with respect to failure: the attempt succeeds
exactly when validation of the whole piece succeeds (cells are marked only
after the whole piece validated, and marking then cannot raise), and a
failed attempt leaves every grid cell bit-for-bit unchanged. -/
theorem place_atomic (v : Vol) (offs : List V3) (a : V3) :
    ((placeRun v offs a).1 = Except.ok () ↔
      validate_placement v offs a = Except.ok ()) ∧
    (∀ e : PErr, (placeRun v offs a).1 = Except.error e →
      ∀ i j k : Fin 3, (placeRun v offs a).2 i j k = v i j k) := by
  refine ⟨placeRun_ok_iff v offs a, ?_⟩
  intro e he i j k
  rw [placeRun_error_frame v offs a e he]

/-- Witness for place_atomic at a concrete failing placement. -/
theorem place_atomic_witness :
    (placeRun emptyVol [((-1 : Int), (0 : Int), (0 : Int))]
        ((0 : Int), (0 : Int), (0 : Int))).2 0 0 0 = emptyVol 0 0 0 :=
  (place_atomic emptyVol [((-1 : Int), (0 : Int), (0 : Int))]
    ((0 : Int), (0 : Int), (0 : Int))).2 PErr.outOfBounds (by decide) 0 0 0

/-- C1 counterexample: on the concrete game holding only the unplaceable
block, the volume is not filled and the queue is non-empty, no (anchor,
orientation) combination at this level produces a solved result, and
solve returns an unsolved state whose remaining queue is not the input
queue: the selected piece is missing from it. -/
theorem solve_prebranch_queue_cx :
    is_solved gBad = false ∧ gBad.block_candidates ≠ [] ∧
    (solveAnchors (solveFuel 0) { gBad with block_candidates := [] } badBlock
        anchorsList).isNone = true ∧
    is_solved (solve gBad) = false ∧
    (solve gBad).block_candidates ≠ gBad.block_candidates := by
  decide

/-- C1 (amended): if no (anchor, orientation) combination at this level
produced a solved result, solve returns the post-pop state: same volume
and same placed list as the input, but the remaining queue is the input's
queue with the selected (last) piece removed. -/
theorem solve_no_solution_returns_popped (g : GameState) (pb : Block)
    (h1 : is_solved g = false) (h2 : g.block_candidates.getLast? = some pb)
    (h3 : (solveAnchors (solveFuel (g.block_candidates.length - 1))
        { g with block_candidates := g.block_candidates.dropLast } pb
        anchorsList).isNone = true) :
    solve g = { g with block_candidates := g.block_candidates.dropLast } := by
  rw [solve_unfold g pb h1 h2, Option.isNone_iff_eq_none.mp h3]

/-- Witness for solve_no_solution_returns_popped on the concrete game. -/
theorem solve_no_solution_returns_popped_witness :
    solve gBad = { gBad with block_candidates := gBad.block_candidates.dropLast } :=
  solve_no_solution_returns_popped gBad badBlock (by decide) (by decide) (by decide)

/-- C9: whenever the volume is not filled, the queue is non-empty, and
solve returns an unsolved result, the returned state has the input's
volume occupancy and placed list unchanged, and its remaining queue is the
input's queue with exactly the selected (last) piece removed. -/
theorem solve_unsolved_frame (g : GameState) (pb : Block)
    (h1 : is_solved g = false) (h2 : g.block_candidates.getLast? = some pb)
    (h3 : is_solved (solve g) = false) :
    solve g = { g with block_candidates := g.block_candidates.dropLast } := by
  cases hSv : solveAnchors (solveFuel (g.block_candidates.length - 1))
      { g with block_candidates := g.block_candidates.dropLast } pb anchorsList with
  | none =>
    rw [solve_unfold g pb h1 h2, hSv]
  | some s =>
    exfalso
    have hsolved := solveAnchors_solved _ _ _ _ s hSv
    rw [solve_unfold g pb h1 h2, hSv] at h3
    have h3f : is_solved s = false := h3
    rw [hsolved] at h3f
    simp at h3f

/-- Witness for solve_unsolved_frame on the concrete game. -/
theorem solve_unsolved_frame_witness :
    is_solved (solve gBad) = false ∧
    solve gBad = { gBad with block_candidates := gBad.block_candidates.dropLast } :=
  ⟨by decide, solve_unsolved_frame gBad badBlock (by decide) (by decide) (by decide)⟩

/-- C4: one full run of the rotations generator yields the canonical
offset set transformed by each of the 24 cumulative rotation matrices in
turn; those matrices are 24, pairwise distinct, and are exactly the
integer matrices that are orthogonal with determinant +1, i.e. the full
proper rotation group of the cube with no omission and no duplication. -/
theorem rotations_proper_rotation_group :
    (∀ b : Block, (Block.rotations b).map Block.coords =
      rotMats.map (fun M => b.coords.map (mulVec M))) ∧
    rotMats.length = 24 ∧ rotMats.Nodup ∧
    (∀ M : M3, M ∈ rotMats ↔ (matMul (transpose M) M = oneM ∧ det M = 1)) := by
  refine ⟨?_, by decide, by decide, ?_⟩
  · intro b
    rw [rotations_eq, List.map_map]
    exact map_ext_fun _ _ _ (fun M => rfl)
  · intro M
    constructor
    · intro hM
      exact rotMats_proper M hM
    · rintro ⟨horth, hdet⟩
      exact mem_rotMats_of_proper M horth hdet

/-- Witness for rotations_proper_rotation_group: Rx itself is one of the
24 visited rotations. -/
theorem rotations_proper_rotation_group_witness : Rx ∈ rotMats :=
  (rotations_proper_rotation_group.2.2.2 Rx).mpr (by decide)

/-- C7: every search state reachable by the operations of solve satisfies
the packing invariant: all placed cells are in bounds, the filled grid
cells are exactly the union of the placed blocks' absolute cells, and
distinct placed blocks occupy pairwise disjoint cell sets. -/
theorem reachable_packing_invariant (g : GameState) (h : Reachable g) :
    PackingInv g := by
  induction h with
  | init cands =>
    refine ⟨?_, ?_, List.Pairwise.nil⟩
    · intro b hb
      exact absurd hb (by simp)
    · intro i j k
      constructor
      · intro hne
        exact absurd rfl hne
      · rintro ⟨b, hb, -⟩
        exact absurd hb (by simp)
  | step g pb a y box2 hg hsolved hlast hanchor hskip hy hplace ih =>
    have horig : y.origin = a := (rotations_origin_name _ y hy).1
    exact packing_step g.block_candidates g.block_candidates.dropLast
      g.placed_blocks g.box a y box2 horig hplace ih

/-- Witness for reachable_packing_invariant at the initial state. -/
theorem reachable_packing_invariant_witness :
    PackingInv { block_candidates := ([] : List Block), placed_blocks := [],
                 box := emptyVol } :=
  reachable_packing_invariant _ (Reachable.init [])

/-- C8: on every volume reachable by successful placements from the empty
volume, is_filled holds exactly when num_filled equals 27, and exactly
when every cell of the grid reports occupied. -/
theorem vol_queries_agree (v : Vol) (h : VolReachable v) :
    (is_filled v = true ↔ num_filled v = 27) ∧
    (is_filled v = true ↔ ∀ i j k : Fin 3, coord_is_filled v i j k ≠ 0) := by
  have h01 := volReachable_01 v h
  have hmem : ∀ x ∈ allCells.map (fun c => v c.1 c.2.1 c.2.2), x = 0 ∨ x = 1 := by
    intro x hx
    obtain ⟨c, hc, rfl⟩ := List.mem_map.mp hx
    exact h01 c.1 c.2.1 c.2.2
  have hsum := sum_eq_length_iff _ hmem
  have hlen : (((allCells.map (fun c => v c.1 c.2.1 c.2.2)).length : Nat) : Int) = 27 := by
    rw [List.length_map]
    decide
  rw [hlen] at hsum
  constructor
  · rw [is_filled_iff]
    unfold num_filled
    rw [hsum]
    constructor
    · intro hall x hx
      obtain ⟨c, hc, rfl⟩ := List.mem_map.mp hx
      exact hall c.1 c.2.1 c.2.2
    · intro hall i j k
      exact hall (v i j k) (List.mem_map.mpr ⟨(i, j, k), mem_allCells i j k, rfl⟩)
  · rw [is_filled_iff]
    constructor
    · intro hall i j k
      rw [show coord_is_filled v i j k = v i j k from rfl, hall i j k]
      exact one_ne_zero
    · intro hall i j k
      rcases h01 i j k with h0 | h1
      · exact absurd h0 (hall i j k)
      · exact h1

/-- Witness for vol_queries_agree at the empty volume. -/
theorem vol_queries_agree_witness :
    is_filled emptyVol = true ↔ num_filled emptyVol = 27 :=
  (vol_queries_agree emptyVol VolReachable.empty).1

/-- C10: rotation matrices fix the zero vector, so every generated
orientation of a piece containing offset (0,0,0) also contains (0,0,0);
hence validation of any such orientation at an occupied anchor necessarily
fails, so the skipping of occupied anchor cells in solve never discards a
placement that validation would have accepted. -/
theorem zero_offset_occupied_anchor (b : Block)
    (h0 : ((0 : Int), (0 : Int), (0 : Int)) ∈ b.coords)
    (y : Block) (hy : y ∈ Block.rotations b) :
    ((0 : Int), (0 : Int), (0 : Int)) ∈ y.coords ∧
    ∀ (v : Vol) (a : V3), boxGet v a ≠ 0 →
      validate_placement v y.coords a ≠ Except.ok () := by
  obtain ⟨-, -, M, hM, hcoords⟩ := rotations_origin_name b y hy
  have h0y : ((0 : Int), (0 : Int), (0 : Int)) ∈ y.coords := by
    rw [hcoords]
    exact List.mem_map.mpr ⟨_, h0, mulVec_zero M⟩
  refine ⟨h0y, ?_⟩
  intro v a hocc hok
  have hcell := (validate_ok_iff v y.coords a).mp hok _ h0y
  rw [vadd_zero_right] at hcell
  exact hocc hcell.2

/-- Witness for zero_offset_occupied_anchor on a concrete orientation of
the block B1 at the occupied anchor (0,0,0). -/
theorem zero_offset_occupied_anchor_witness :
    ((0 : Int), (0 : Int), (0 : Int)) ∈ (applyOp Rx blockB1).coords ∧
    validate_placement box100 (applyOp Rx blockB1).coords
      ((0 : Int), (0 : Int), (0 : Int)) ≠ Except.ok () := by
  have H := zero_offset_occupied_anchor blockB1 (by decide)
    (applyOp Rx blockB1) (by decide)
  exact ⟨H.1, H.2 box100 ((0 : Int), (0 : Int), (0 : Int)) (by decide)⟩

